import Mathlib

/-!
Verification of the day-10 button-machine optimizer (files day10.py and
day10_chatgpt.py): the binary (toggle) model solved by brute force
(solve_gf2) and by Gaussian elimination over GF(2) with null-space
enumeration (gf2_solve_minweight), and the counter (increment) model
solved by exact integer programming (solve_machine_minpresses,
solve_joltage).

Conventions of the embedding:
* a machine with n lights/counters and m buttons is given by a target
  vector over Fin n and a family buttons : Fin m → List (Fin n), the
  ordered list of affected indices of each button (a multiset, indices
  may repeat, all in range as the input format guarantees);
* GF(2) is ZMod 2; unbounded "float('inf')" results are modelled by the
  top element of WithTop ℕ;
* the external LP / ILP solvers called by the source (scipy.linprog,
  scipy.milp, pulp's CBC) are modelled by their contract: an exact
  optimum of the stated program, see lpSpec and the exact minimum
  minPressSum below.
-/

set_option maxHeartbeats 4000000
set_option maxRecDepth 10000

namespace Day10

/-- Number of 1-entries of a press vector (numpy: x.sum() on 0/1 ints). -/
def weight {m : ℕ} (x : Fin m → ZMod 2) : ℕ := ∑ j, (x j).val

/-- The toggle matrix built by parse_line_part1: row[idx] ^= 1 for each
occurrence of idx in the button, i.e. entry (j, i) is the parity of the
number of occurrences of index i in button j. -/
def toggleMatrix {n m : ℕ} (buttons : Fin m → List (Fin n)) :
    Fin m → Fin n → ZMod 2 :=
  fun j i => ((buttons j).count i : ZMod 2)

/-- The light state reached by pressing the set of buttons selected by x,
as computed by the inner loop of solve_gf2: state[light] ^= 1 for every
occurrence of light in every pressed button. -/
def pressState {n m : ℕ} (buttons : Fin m → List (Fin n))
    (x : Fin m → ZMod 2) : Fin n → ZMod 2 :=
  fun i => ∑ j, x j * ((buttons j).count i : ZMod 2)

/-- solve_gf2 from day10.py: enumerate all 2^m press subsets, keep the
minimum press count among those whose simulated state equals the target,
and return 0 (not an error) when no subset works. -/
def solve_gf2 {n m : ℕ} (target : Fin n → ZMod 2)
    (buttons : Fin m → List (Fin n)) : ℕ :=
  (Finset.univ.inf fun x : Fin m → ZMod 2 =>
    if pressState buttons x = target then ((weight x : ℕ) : WithTop ℕ) else ⊤).untop' 0

lemma pressState_eq_sum_toggle {n m : ℕ} (buttons : Fin m → List (Fin n))
    (x : Fin m → ZMod 2) (i : Fin n) :
    pressState buttons x i = ∑ j, toggleMatrix buttons j i * x j := by
  simp only [pressState, toggleMatrix]
  exact Finset.sum_congr rfl fun j _ => mul_comm _ _

lemma solve_gf2_eq_top_iff {n m : ℕ} (target : Fin n → ZMod 2)
    (buttons : Fin m → List (Fin n)) :
    (Finset.univ.inf fun x : Fin m → ZMod 2 =>
      if pressState buttons x = target then ((weight x : ℕ) : WithTop ℕ) else ⊤) = ⊤
      ↔ ¬ ∃ x, pressState buttons x = target := by
  rw [Finset.inf_eq_top_iff]
  constructor
  · rintro h ⟨x, hx⟩
    have := h x (Finset.mem_univ x)
    rw [if_pos hx] at this
    exact (WithTop.coe_ne_top) this
  · intro h x _
    rw [if_neg (fun hx => h ⟨x, hx⟩)]

/-- When no press subset reaches the target, solve_gf2 returns 0. -/
lemma solve_gf2_infeasible {n m : ℕ} (target : Fin n → ZMod 2)
    (buttons : Fin m → List (Fin n))
    (h : ¬ ∃ x, pressState buttons x = target) :
    solve_gf2 target buttons = 0 := by
  rw [solve_gf2, (solve_gf2_eq_top_iff target buttons).mpr h]
  rfl

/-- When some press subset reaches the target, solve_gf2 returns the
weight of a feasible press vector of minimum weight. -/
lemma solve_gf2_feasible {n m : ℕ} (target : Fin n → ZMod 2)
    (buttons : Fin m → List (Fin n))
    (h : ∃ x, pressState buttons x = target) :
    ∃ x0, pressState buttons x0 = target ∧ solve_gf2 target buttons = weight x0 ∧
      ∀ y, pressState buttons y = target → weight x0 ≤ weight y := by
  classical
  obtain ⟨x0, hx0, hmin⟩ := Finset.exists_min_image
    (Finset.univ.filter fun x => pressState buttons x = target) weight
    (by obtain ⟨x, hx⟩ := h; exact ⟨x, by simp [hx]⟩)
  rw [Finset.mem_filter] at hx0
  refine ⟨x0, hx0.2, ?_, fun y hy => hmin y (by simp [hy])⟩
  have hinf : (Finset.univ.inf fun x : Fin m → ZMod 2 =>
      if pressState buttons x = target then ((weight x : ℕ) : WithTop ℕ) else ⊤)
      = ((weight x0 : ℕ) : WithTop ℕ) := by
    apply le_antisymm
    · exact le_trans (Finset.inf_le (Finset.mem_univ x0)) (by rw [if_pos hx0.2])
    · rw [Finset.le_inf_iff]
      intro y _
      by_cases hy : pressState buttons y = target
      · rw [if_pos hy]
        exact_mod_cast hmin y (by simp [hy])
      · rw [if_neg hy]; exact le_top
  rw [solve_gf2, hinf]
  rfl

/-! ### The field-elimination binary solver (gf2_solve_minweight) -/

/-- One augmented row of the GF(2) system: the coefficients over the m
unknowns (one per button) and the right-hand-side bit. -/
abbrev GRow (m : ℕ) := (Fin m → ZMod 2) × ZMod 2

/-- The row operation M[i] ^= M[r] on augmented rows. -/
def xorRow {m : ℕ} (S P : GRow m) : GRow m :=
  (fun j => S.1 j + P.1 j, S.2 + P.2)

/-- Xor the pivot row P into S when S has a 1 in the pivot column c,
leave S alone otherwise (the guarded M[i] ^= M[r] of the source). -/
def condXor {m : ℕ} (c : Fin m) (P S : GRow m) : GRow m :=
  if S.1 c = 1 then xorRow S P else S

/-- State of the elimination: piv holds the rows at positions 0..r-1 of
the numpy array, each paired with its recorded pivot column
(pivot_cols[i]); rest holds the rows at positions r.. (exactly the rows
whose pivot_cols entry is still -1). -/
structure ElimState (m : ℕ) where
  piv : List (Fin m × GRow m)
  rest : List (GRow m)

/-- Reordering of the remaining rows produced by the swap
M[[pivot, r]] = M[[r, pivot]]: the pivot row leaves, and the row
displaced from position r lands at the pivot's old position. -/
def afterSwap {m : ℕ} (pre post : List (GRow m)) : List (GRow m) :=
  match pre with
  | [] => post
  | f0 :: pre1 => pre1 ++ f0 :: post

/-- One iteration of the column loop of gf2_solve_minweight: look for the
first remaining row with a 1 in column c; if found, swap it into
position r, record the pivot column and xor it into every other row that
has a 1 in column c. -/
def elimStep {m : ℕ} (c : Fin m) (s : ElimState m) : ElimState m :=
  match s.rest.dropWhile (fun R => !decide (R.1 c = 1)) with
  | [] => s
  | P :: post =>
    { piv := s.piv.map (fun p => (p.1, condXor c P p.2)) ++ [(c, P)]
      rest := (afterSwap (s.rest.takeWhile fun R => !decide (R.1 c = 1))
        post).map (condXor c P) }

/-- The augmented matrix M = concatenate([A.T, b.reshape(-1,1)]) built at
the start of gf2_solve_minweight (one row per light, m+1 columns). -/
def buildM {n m : ℕ} (target : Fin n → ZMod 2) (A : Fin m → Fin n → ZMod 2) :
    List (GRow m) :=
  (List.finRange n).map fun i => (fun j => A j i, target i)

/-- The elimination loop of gf2_solve_minweight over columns 0..m-1.
(The source's early break once r == rows only skips iterations in which
the pivot search range r..rows-1 is already empty, so it is a no-op.) -/
def elimRun {n m : ℕ} (target : Fin n → ZMod 2)
    (A : Fin m → Fin n → ZMod 2) : ElimState m :=
  (List.finRange m).foldl (fun s c => elimStep c s) ⟨[], buildM target A⟩

/-- The particular solution xp: each pivot unknown takes its row's
right-hand side, free unknowns stay 0. -/
def particular {m : ℕ} (s : ElimState m) : Fin m → ZMod 2 :=
  fun j => ((s.piv.find? fun p => decide (p.1 = j)).map fun p => p.2.2).getD 0

/-- The free (non-pivot) columns, in increasing order. -/
def freeCols {m : ℕ} (s : ElimState m) : List (Fin m) :=
  (List.finRange m).filter fun c => decide (∀ p ∈ s.piv, p.1 ≠ c)

/-- The null-space basis vector attached to a free column fc: that free
unknown is 1, the other free unknowns are 0, and each pivot unknown
copies entry fc of its row (v[pc] ^= M[i, fc] starting from 0). -/
def nullVec {m : ℕ} (s : ElimState m) (fc : Fin m) : Fin m → ZMod 2 :=
  fun j => if j = fc then 1
    else ((s.piv.find? fun p => decide (p.1 = j)).map fun p => p.2.1 fc).getD 0

/-- The candidate solution enumerated for one choice σ of the free
unknowns: xp xored with the selected null-space basis vectors. -/
def enumSol {m : ℕ} (s : ElimState m)
    (σ : Fin (freeCols s).length → ZMod 2) : Fin m → ZMod 2 :=
  fun j => particular s j + ∑ i, σ i * nullVec s ((freeCols s).get i) j

/-- gf2_solve_minweight from day10_chatgpt.py: eliminate over GF(2),
report float('inf') (⊤) when a pivotless row has right-hand side 1, and
otherwise take the minimum Hamming weight over the 2^k combinations of
null-space basis vectors xored into the particular solution. Caveat: on
a machine with an empty button list the source raises before solving
(np.array of an empty list is one-dimensional, so unpacking A.shape
fails); the model totalizes that out-of-format case, and no claim rests
on it — every input line carries at least one button group. -/
def gf2_solve_minweight {n m : ℕ} (target : Fin n → ZMod 2)
    (A : Fin m → Fin n → ZMod 2) : WithTop ℕ :=
  if (elimRun target A).rest.any fun R => decide (R.2 = 1) then ⊤
  else Finset.univ.inf
    fun σ : Fin (freeCols (elimRun target A)).length → ZMod 2 =>
      ((weight (enumSol (elimRun target A) σ) : ℕ) : WithTop ℕ)

/-! ### Solution-set semantics of the elimination -/

/-- A press vector satisfies one augmented row when its GF(2) dot product
with the coefficients equals the right-hand side. -/
def satRow {m : ℕ} (R : GRow m) (x : Fin m → ZMod 2) : Prop :=
  (∑ j, R.1 j * x j) = R.2

/-- A press vector satisfies every row of a list. -/
def satList {m : ℕ} (L : List (GRow m)) (x : Fin m → ZMod 2) : Prop :=
  ∀ R ∈ L, satRow R x

/-- A press vector satisfies every row held in an elimination state. -/
def satState {m : ℕ} (s : ElimState m) (x : Fin m → ZMod 2) : Prop :=
  (∀ p ∈ s.piv, satRow p.2 x) ∧ satList s.rest x

lemma satList_buildM {n m : ℕ} (target : Fin n → ZMod 2)
    (A : Fin m → Fin n → ZMod 2) (x : Fin m → ZMod 2) :
    satList (buildM target A) x ↔ ∀ i, (∑ j, A j i * x j) = target i := by
  constructor
  · intro h i
    exact h _ (List.mem_map_of_mem _ (List.mem_finRange i))
  · rintro h R hR
    obtain ⟨i, -, rfl⟩ := List.mem_map.mp hR
    exact h i

lemma mem_afterSwap {m : ℕ} {pre post : List (GRow m)} {z : GRow m} :
    z ∈ afterSwap pre post ↔ z ∈ pre ++ post := by
  cases pre with
  | nil => simp [afterSwap]
  | cons f0 pre1 =>
    simp only [afterSwap, List.mem_append, List.mem_cons]
    tauto

lemma dropWhile_head_not {α : Type _} (p : α → Bool) :
    ∀ (l : List α) {a : α} {t : List α}, l.dropWhile p = a :: t → p a = false := by
  intro l
  induction l with
  | nil => intro a t h; simp [List.dropWhile] at h
  | cons b l ih =>
    intro a t h
    rw [List.dropWhile_cons] at h
    by_cases hb : p b
    · rw [if_pos hb] at h; exact ih h
    · rw [if_neg hb] at h
      obtain ⟨rfl, -⟩ := List.cons.injEq .. ▸ h
      cases h
      simpa using hb

lemma zmod2_ne_one {a : ZMod 2} (h : ¬ a = 1) : a = 0 := by
  revert h; revert a; decide

lemma satRow_xorRow {m : ℕ} {P S : GRow m} {x : Fin m → ZMod 2}
    (hP : satRow P x) : satRow (xorRow S P) x ↔ satRow S x := by
  unfold satRow at *
  unfold xorRow
  simp only [add_mul, Finset.sum_add_distrib, hP.symm]
  constructor
  · intro h
    have := congrArg (fun z => z + ∑ j, P.1 j * x j) h
    simpa [add_assoc, CharTwo.add_self_eq_zero] using this
  · intro h; rw [h]

lemma satRow_condXor {m : ℕ} {c : Fin m} {P S : GRow m} {x : Fin m → ZMod 2}
    (hP : satRow P x) : satRow (condXor c P S) x ↔ satRow S x := by
  unfold condXor
  by_cases h : S.1 c = 1
  · rw [if_pos h]; exact satRow_xorRow hP
  · rw [if_neg h]

lemma elimStep_of_dropWhile_nil {m : ℕ} (c : Fin m) (s : ElimState m)
    (h : s.rest.dropWhile (fun R => !decide (R.1 c = 1)) = []) :
    elimStep c s = s := by
  unfold elimStep; rw [h]

lemma elimStep_of_dropWhile_cons {m : ℕ} (c : Fin m) (s : ElimState m)
    {P : GRow m} {post : List (GRow m)}
    (h : s.rest.dropWhile (fun R => !decide (R.1 c = 1)) = P :: post) :
    elimStep c s =
      { piv := s.piv.map (fun p => (p.1, condXor c P p.2)) ++ [(c, P)]
        rest := (afterSwap (s.rest.takeWhile fun R => !decide (R.1 c = 1))
          post).map (condXor c P) } := by
  unfold elimStep; rw [h]

/-- Loop invariant of the elimination; Pr is the set of columns already
processed by the loop. -/
structure ElimInv {m : ℕ} (M0 : List (GRow m)) (Pr : Finset (Fin m))
    (s : ElimState m) : Prop where
  sol : ∀ x, satState s x ↔ satList M0 x
  pivOne : ∀ p ∈ s.piv, p.2.1 p.1 = 1
  pivPr : ∀ p ∈ s.piv, p.1 ∈ Pr
  keyNodup : (s.piv.map Prod.fst).Nodup
  pivZero : ∀ p ∈ s.piv, ∀ q ∈ s.piv, p.1 ≠ q.1 → q.2.1 p.1 = 0
  restZero : ∀ c ∈ Pr, ∀ R ∈ s.rest, R.1 c = 0

lemma condXor_pivotCol {m : ℕ} (c : Fin m) (P S : GRow m) (hPc : P.1 c = 1) :
    (condXor c P S).1 c = 0 := by
  unfold condXor
  by_cases h : S.1 c = 1
  · rw [if_pos h]; show S.1 c + P.1 c = 0; rw [h, hPc]; decide
  · rw [if_neg h]; exact zmod2_ne_one h

lemma condXor_keep {m : ℕ} (c : Fin m) (P S : GRow m) {c' : Fin m}
    (hP : P.1 c' = 0) : (condXor c P S).1 c' = S.1 c' := by
  unfold condXor
  by_cases h : S.1 c = 1
  · rw [if_pos h]; show S.1 c' + P.1 c' = S.1 c'; rw [hP, add_zero]
  · rw [if_neg h]

/-- One column of elimination preserves the loop invariant (the column
being fresh) and marks the column processed. -/
lemma elimStep_inv {m : ℕ} {M0 : List (GRow m)} {Pr : Finset (Fin m)}
    {s : ElimState m} {c : Fin m} (hc : c ∉ Pr) (H : ElimInv M0 Pr s) :
    ElimInv M0 (insert c Pr) (elimStep c s) := by
  rcases hd : s.rest.dropWhile (fun R => !decide (R.1 c = 1)) with - | ⟨P, post⟩
  · rw [elimStep_of_dropWhile_nil c s hd]
    have hall : ∀ R ∈ s.rest, R.1 c = 0 := by
      intro R hR
      have := List.dropWhile_eq_nil_iff.mp hd R hR
      simp only [Bool.not_eq_true', decide_eq_false_iff_not] at this
      exact zmod2_ne_one this
    exact ⟨H.sol, H.pivOne, fun p hp => Finset.mem_insert_of_mem (H.pivPr p hp),
      H.keyNodup, H.pivZero, by
        intro c' hc' R hR
        rcases Finset.mem_insert.mp hc' with rfl | hc'
        · exact hall R hR
        · exact H.restZero c' hc' R hR⟩
  · rw [elimStep_of_dropWhile_cons c s hd]
    set pre := s.rest.takeWhile (fun R => !decide (R.1 c = 1)) with hpre_def
    have hsplit : s.rest = pre ++ P :: post := by
      rw [hpre_def, ← hd, List.takeWhile_append_dropWhile]
    have hPc : P.1 c = 1 := by
      have := dropWhile_head_not _ _ hd
      simpa using this
    have hPrest : P ∈ s.rest := by rw [hsplit]; simp
    have hpre0 : ∀ R ∈ pre, R.1 c = 0 := by
      intro R hR
      have := List.mem_takeWhile_imp hR
      simp only [Bool.not_eq_true', decide_eq_false_iff_not] at this
      exact zmod2_ne_one this
    have hmem1 : ∀ z ∈ afterSwap pre post, z ∈ s.rest := by
      intro z hz
      rcases List.mem_append.mp (mem_afterSwap.mp hz) with h | h
      · rw [hsplit]; exact List.mem_append_left _ h
      · rw [hsplit]; exact List.mem_append_right _ (List.mem_cons_of_mem _ h)
    have hPpr : ∀ c' ∈ Pr, P.1 c' = 0 := fun c' hc' => H.restZero c' hc' P hPrest
    constructor
    · -- solution set preserved
      intro x
      rw [← H.sol x]
      unfold satState satList
      constructor
      · rintro ⟨hpiv, hrest⟩
        have hP : satRow P x :=
          hpiv (c, P) (List.mem_append_right _ (List.mem_singleton_self _))
        constructor
        · intro p hp
          have := hpiv (p.1, condXor c P p.2)
            (List.mem_append_left _ (List.mem_map_of_mem _ hp))
          exact (satRow_condXor hP).mp this
        · intro R hR
          rw [hsplit] at hR
          rcases List.mem_append.mp hR with h | h
          · have : condXor c P R ∈ (afterSwap pre post).map (condXor c P) :=
              List.mem_map_of_mem _ (mem_afterSwap.mpr (List.mem_append_left _ h))
            exact (satRow_condXor hP).mp (hrest _ this)
          · rcases List.mem_cons.mp h with rfl | h
            · exact hP
            · have : condXor c P R ∈ (afterSwap pre post).map (condXor c P) :=
                List.mem_map_of_mem _ (mem_afterSwap.mpr (List.mem_append_right _ h))
              exact (satRow_condXor hP).mp (hrest _ this)
      · rintro ⟨hpiv, hrest⟩
        have hP : satRow P x := hrest P (by rw [hsplit]; simp)
        constructor
        · intro p hp
          rcases List.mem_append.mp hp with h | h
          · rcases List.mem_map.mp h with ⟨q, hq, rfl⟩
            exact (satRow_condXor hP).mpr (hpiv q hq)
          · rw [List.mem_singleton.mp h]; exact hP
        · intro z hz
          rcases List.mem_map.mp hz with ⟨S, hS, rfl⟩
          exact (satRow_condXor hP).mpr (hrest S (hmem1 S hS))
    · -- pivot entries stay 1
      intro p hp
      rcases List.mem_append.mp hp with h | h
      · rcases List.mem_map.mp h with ⟨q, hq, rfl⟩
        show (condXor c P q.2).1 q.1 = 1
        rw [condXor_keep c P q.2 (hPpr q.1 (H.pivPr q hq))]
        exact H.pivOne q hq
      · rw [List.mem_singleton.mp h]; exact hPc
    · -- pivot columns processed
      intro p hp
      rcases List.mem_append.mp hp with h | h
      · rcases List.mem_map.mp h with ⟨q, hq, rfl⟩
        exact Finset.mem_insert_of_mem (H.pivPr q hq)
      · rw [List.mem_singleton.mp h]; exact Finset.mem_insert_self c Pr
    · -- pivot columns distinct
      rw [List.map_append, List.nodup_append]
      refine ⟨by simpa [List.map_map, Function.comp] using H.keyNodup, by simp, ?_⟩
      intro a ha hb
      simp only [List.map_map, List.mem_map, Function.comp] at ha
      rcases ha with ⟨q, hq, rfl⟩
      simp only [List.map_singleton, List.mem_singleton] at hb
      exact hc (hb ▸ H.pivPr q hq)
    · -- each pivot column is zero in the other pivot rows
      intro p hp q hq hne
      rcases List.mem_append.mp hp with h | h
      · rcases List.mem_map.mp h with ⟨p0, hp0, rfl⟩
        rcases List.mem_append.mp hq with h' | h'
        · rcases List.mem_map.mp h' with ⟨q0, hq0, rfl⟩
          show (condXor c P q0.2).1 p0.1 = 0
          rw [condXor_keep c P q0.2 (hPpr p0.1 (H.pivPr p0 hp0))]
          exact H.pivZero p0 hp0 q0 hq0 hne
        · rw [List.mem_singleton.mp h']
          exact hPpr p0.1 (H.pivPr p0 hp0)
      · rw [List.mem_singleton.mp h] at hne ⊢
        rcases List.mem_append.mp hq with h' | h'
        · rcases List.mem_map.mp h' with ⟨q0, hq0, rfl⟩
          exact condXor_pivotCol c P q0.2 hPc
        · rw [List.mem_singleton.mp h'] at hne
          exact absurd rfl hne
    · -- remaining rows are zero on processed columns
      intro c' hc' z hz
      rcases List.mem_map.mp hz with ⟨S, hS, rfl⟩
      rcases Finset.mem_insert.mp hc' with rfl | hc'
      · exact condXor_pivotCol c' P S hPc
      · rw [condXor_keep c P S (hPpr c' hc')]
        exact H.restZero c' hc' S (hmem1 S hS)

/-- Folding elimination steps over a list of fresh distinct columns
preserves the invariant. -/
lemma elimFold_inv {m : ℕ} {M0 : List (GRow m)} :
    ∀ (cs : List (Fin m)) (Pr : Finset (Fin m)) (s : ElimState m),
      cs.Nodup → (∀ c ∈ cs, c ∉ Pr) → ElimInv M0 Pr s →
      ElimInv M0 (Pr ∪ cs.toFinset) (cs.foldl (fun s c => elimStep c s) s) := by
  intro cs
  induction cs with
  | nil => intro Pr s _ _ H; simpa using H
  | cons c cs ih =>
    intro Pr s hnd hfresh H
    have h1 : ElimInv M0 (insert c Pr) (elimStep c s) :=
      elimStep_inv (hfresh c (List.mem_cons_self c cs)) H
    have h2 := ih (insert c Pr) (elimStep c s) (List.Nodup.of_cons hnd)
      (by
        intro c' hc' hmem
        rcases Finset.mem_insert.mp hmem with rfl | h
        · exact (List.nodup_cons.mp hnd).1 hc'
        · exact hfresh c' (List.mem_cons_of_mem _ hc') h) h1
    have hset : insert c Pr ∪ cs.toFinset = Pr ∪ (c :: cs).toFinset := by
      ext a
      simp only [Finset.mem_union, Finset.mem_insert, List.toFinset_cons]
      tauto
    rw [List.foldl_cons]
    rw [hset] at h2
    exact h2

/-- The invariant holds for the final state of the elimination run, with
every column processed. -/
lemma elimRun_inv {n m : ℕ} (target : Fin n → ZMod 2)
    (A : Fin m → Fin n → ZMod 2) :
    ElimInv (buildM target A) Finset.univ (elimRun target A) := by
  have H0 : ElimInv (buildM target A) ∅ ⟨[], buildM target A⟩ := by
    constructor
    · intro x
      unfold satState satList
      simp
    · simp
    · simp
    · simp
    · simp
    · simp
  have := elimFold_inv (List.finRange m) ∅ ⟨[], buildM target A⟩
    (List.nodup_finRange m) (by simp) H0
  have huniv : (∅ : Finset (Fin m)) ∪ (List.finRange m).toFinset = Finset.univ := by
    ext a; simp [List.mem_finRange]
  rw [huniv] at this
  exact this

/-! ### Reading off the solutions from the final state -/

lemma find?_key_eq {α β : Type _} [DecidableEq α] :
    ∀ (l : List (α × β)) (p : α × β), p ∈ l → (l.map Prod.fst).Nodup →
      l.find? (fun q => decide (q.1 = p.1)) = some p := by
  intro l
  induction l with
  | nil => intro p hp; simp at hp
  | cons q l ih =>
    intro p hp hnd
    rcases List.mem_cons.mp hp with rfl | hp'
    · simp [List.find?]
    · have hq : ¬ q.1 = p.1 := by
        intro h
        have : p.1 ∈ l.map Prod.fst := List.mem_map_of_mem _ hp'
        rw [List.map_cons, List.nodup_cons] at hnd
        exact hnd.1 (h ▸ this)
      rw [List.find?_cons_of_neg _ (by simpa using hq)]
      exact ih p hp' (by rw [List.map_cons, List.nodup_cons] at hnd; exact hnd.2)

lemma find?_key_none {α β : Type _} [DecidableEq α] (l : List (α × β)) (j : α)
    (h : ∀ p ∈ l, p.1 ≠ j) : l.find? (fun q => decide (q.1 = j)) = none :=
  List.find?_eq_none.mpr fun p hp => by simpa using h p hp

lemma sum_fin_get {α M : Type _} [AddCommMonoid M] :
    ∀ (l : List α) (f : α → M), (∑ i : Fin l.length, f (l.get i)) = (l.map f).sum := by
  intro l
  induction l with
  | nil => intro f; simp
  | cons a l ih =>
    intro f
    simp only [List.length_cons]
    rw [Fin.sum_univ_succ]
    simp [ih]

namespace Final

variable {n m : ℕ} {M0 : List (GRow m)} {s : ElimState m}

/-- Membership in the free-column list. -/
lemma mem_freeCols {j : Fin m} : j ∈ freeCols s ↔ ∀ p ∈ s.piv, p.1 ≠ j := by
  unfold freeCols
  rw [List.mem_filter]
  simp [List.mem_finRange]

lemma freeCols_nodup : (freeCols s).Nodup :=
  (List.nodup_finRange m).filter _

/-- The set of pivot columns of the final state. -/
def keyFinset (s : ElimState m) : Finset (Fin m) :=
  (s.piv.map Prod.fst).toFinset

lemma mem_keyFinset {j : Fin m} : j ∈ keyFinset s ↔ ∃ p ∈ s.piv, p.1 = j := by
  unfold keyFinset
  rw [List.mem_toFinset, List.mem_map]

lemma freeCols_toFinset : (freeCols s).toFinset = (keyFinset s)ᶜ := by
  ext j
  rw [List.mem_toFinset, mem_freeCols, Finset.mem_compl, mem_keyFinset]
  constructor
  · rintro h ⟨p, hp, rfl⟩; exact h p hp rfl
  · intro h p hp hpj; exact h ⟨p, hp, hpj⟩

lemma particular_key (H : ElimInv M0 Finset.univ s) {p : Fin m × GRow m}
    (hp : p ∈ s.piv) : particular s p.1 = p.2.2 := by
  unfold particular
  rw [find?_key_eq s.piv p hp H.keyNodup]
  rfl

lemma particular_free {j : Fin m} (hj : ∀ p ∈ s.piv, p.1 ≠ j) :
    particular s j = 0 := by
  unfold particular
  rw [find?_key_none s.piv j hj]
  rfl

lemma nullVec_key (H : ElimInv M0 Finset.univ s) {p : Fin m × GRow m}
    (hp : p ∈ s.piv) {fc : Fin m} (hfc : ∀ q ∈ s.piv, q.1 ≠ fc) :
    nullVec s fc p.1 = p.2.1 fc := by
  unfold nullVec
  rw [if_neg (hfc p hp), find?_key_eq s.piv p hp H.keyNodup]
  rfl

lemma nullVec_self {fc : Fin m} : nullVec s fc fc = 1 := by
  unfold nullVec
  rw [if_pos rfl]

lemma nullVec_free {j fc : Fin m} (hj : ∀ p ∈ s.piv, p.1 ≠ j) (hne : j ≠ fc) :
    nullVec s fc j = 0 := by
  unfold nullVec
  rw [if_neg hne, find?_key_none s.piv j hj]
  rfl

lemma zmod2_shift {a b c : ZMod 2} : a + b = c ↔ a = c + b := by
  revert a b c; decide

/-- Row characterization at the final, fully reduced state: a vector
satisfies a pivot row exactly when the pivot unknown equals the
right-hand side plus the free-column contributions. -/
lemma satRow_pivot_iff (H : ElimInv M0 Finset.univ s) {p : Fin m × GRow m}
    (hp : p ∈ s.piv) (x : Fin m → ZMod 2) :
    satRow p.2 x ↔ x p.1 = p.2.2 +
      ∑ i : Fin (freeCols s).length,
        p.2.1 ((freeCols s).get i) * x ((freeCols s).get i) := by
  have hsplit : (∑ j, p.2.1 j * x j) =
      (∑ j ∈ keyFinset s, p.2.1 j * x j) +
      ∑ j ∈ (keyFinset s)ᶜ, p.2.1 j * x j :=
    (Finset.sum_add_sum_compl (keyFinset s) _).symm
  have hkey : (∑ j ∈ keyFinset s, p.2.1 j * x j) = x p.1 := by
    rw [Finset.sum_eq_single p.1]
    · rw [H.pivOne p hp, one_mul]
    · intro b hb hbne
      rcases mem_keyFinset.mp hb with ⟨q, hq, rfl⟩
      rw [H.pivZero q hq p hp hbne, zero_mul]
    · intro habs
      exact absurd (mem_keyFinset.mpr ⟨p, hp, rfl⟩) habs
  have hfree : (∑ j ∈ (keyFinset s)ᶜ, p.2.1 j * x j) =
      ∑ i : Fin (freeCols s).length,
        p.2.1 ((freeCols s).get i) * x ((freeCols s).get i) := by
    rw [← freeCols_toFinset, List.sum_toFinset _ freeCols_nodup,
      sum_fin_get (freeCols s) (fun j => p.2.1 j * x j)]
  unfold satRow
  rw [hsplit, hkey, hfree, zmod2_shift]

/-- On a free column, the enumerated solution takes the chosen value. -/
lemma enumSol_free (i : Fin (freeCols s).length)
    (σ : Fin (freeCols s).length → ZMod 2) :
    enumSol s σ ((freeCols s).get i) = σ i := by
  have hj : ∀ p ∈ s.piv, p.1 ≠ (freeCols s).get i :=
    mem_freeCols.mp (List.get_mem _ i.1 i.2)
  unfold enumSol
  rw [particular_free hj, zero_add]
  rw [Finset.sum_eq_single i]
  · rw [nullVec_self, mul_one]
  · intro b _ hbne
    rw [nullVec_free hj, mul_zero]
    intro h
    exact hbne (Fin.ext (freeCols_nodup.get_inj_iff.mp h.symm ▸ rfl))
  · intro habs
    exact absurd (Finset.mem_univ i) habs

/-- On a pivot column, the enumerated solution takes the right-hand side
plus the selected entries of the pivot row on the free columns. -/
lemma enumSol_key (H : ElimInv M0 Finset.univ s) {p : Fin m × GRow m}
    (hp : p ∈ s.piv) (σ : Fin (freeCols s).length → ZMod 2) :
    enumSol s σ p.1 = p.2.2 +
      ∑ i : Fin (freeCols s).length, σ i * p.2.1 ((freeCols s).get i) := by
  unfold enumSol
  rw [particular_key H hp]
  congr 1
  refine Finset.sum_congr rfl fun i _ => ?_
  rw [nullVec_key H hp (mem_freeCols.mp (List.get_mem _ i.1 i.2))]

/-- With every column processed and all pivotless right-hand sides zero,
the original system reduces to the pivot-row equations. -/
lemma satList_iff_pivots (H : ElimInv M0 Finset.univ s)
    (hcons : ∀ R ∈ s.rest, R.2 = 0) (x : Fin m → ZMod 2) :
    satList M0 x ↔ ∀ p ∈ s.piv, satRow p.2 x := by
  rw [← H.sol x]
  unfold satState
  constructor
  · exact fun h => h.1
  · intro h
    refine ⟨h, fun R hR => ?_⟩
    unfold satRow
    rw [hcons R hR]
    rw [Finset.sum_eq_zero]
    intro j _
    rw [H.restZero j (Finset.mem_univ j) R hR, zero_mul]

/-- Every enumerated candidate solves the original system. -/
lemma enumSol_sat (H : ElimInv M0 Finset.univ s)
    (hcons : ∀ R ∈ s.rest, R.2 = 0)
    (σ : Fin (freeCols s).length → ZMod 2) : satList M0 (enumSol s σ) := by
  rw [satList_iff_pivots H hcons]
  intro p hp
  rw [satRow_pivot_iff H hp]
  rw [enumSol_key H hp σ]
  congr 1
  refine Finset.sum_congr rfl fun i _ => ?_
  rw [enumSol_free i σ, mul_comm]

/-- Every solution of the original system is one of the enumerated
candidates: the one selecting its own free-column values. -/
lemma sat_eq_enumSol (H : ElimInv M0 Finset.univ s)
    (hcons : ∀ R ∈ s.rest, R.2 = 0) (x : Fin m → ZMod 2)
    (hx : satList M0 x) :
    x = enumSol s (fun i => x ((freeCols s).get i)) := by
  funext j
  by_cases hj : ∃ p ∈ s.piv, p.1 = j
  · obtain ⟨p, hp, rfl⟩ := hj
    have h1 := (satRow_pivot_iff H hp x).mp
      ((satList_iff_pivots H hcons x).mp hx p hp)
    rw [h1, enumSol_key H hp]
    congr 1
    exact Finset.sum_congr rfl fun i _ => mul_comm _ _
  · push_neg at hj
    have hjf : j ∈ freeCols s := mem_freeCols.mpr hj
    obtain ⟨i, hi⟩ := List.mem_iff_get.mp hjf
    rw [← hi, enumSol_free i]

/-- A pivotless row with right-hand side 1 witnesses inconsistency. -/
lemma inconsistent_no_sol (H : ElimInv M0 Finset.univ s) {R : GRow m}
    (hR : R ∈ s.rest) (hR1 : R.2 = 1) : ¬ ∃ x, satList M0 x := by
  rintro ⟨x, hx⟩
  have := ((H.sol x).mpr hx).2 R hR
  unfold satRow at this
  rw [hR1, Finset.sum_eq_zero] at this
  · exact zero_ne_one this
  · intro j _
    rw [H.restZero j (Finset.mem_univ j) R hR, zero_mul]

end Final

lemma gf2_of_any_true {n m : ℕ} {target : Fin n → ZMod 2}
    {A : Fin m → Fin n → ZMod 2}
    (hany : ((elimRun target A).rest.any fun R => decide (R.2 = 1)) = true) :
    gf2_solve_minweight target A = ⊤ := by
  unfold gf2_solve_minweight
  rw [hany]
  rfl

lemma gf2_of_any_false {n m : ℕ} {target : Fin n → ZMod 2}
    {A : Fin m → Fin n → ZMod 2}
    (hany : ((elimRun target A).rest.any fun R => decide (R.2 = 1)) = false) :
    gf2_solve_minweight target A = Finset.univ.inf
      (fun σ : Fin (freeCols (elimRun target A)).length → ZMod 2 =>
        ((weight (enumSol (elimRun target A) σ) : ℕ) : WithTop ℕ)) := by
  unfold gf2_solve_minweight
  rw [hany]
  rfl

/-- gf2_solve_minweight returns float('inf') exactly on inconsistent
systems. -/
theorem gf2_solve_minweight_eq_top_iff {n m : ℕ} (target : Fin n → ZMod 2)
    (A : Fin m → Fin n → ZMod 2) :
    gf2_solve_minweight target A = ⊤ ↔ ¬ ∃ x, satList (buildM target A) x := by
  have H := elimRun_inv target A
  rcases hany : (elimRun target A).rest.any fun R => decide (R.2 = 1) with - | -
  · rw [gf2_of_any_false hany]
    have hcons : ∀ R ∈ (elimRun target A).rest, R.2 = 0 := by
      intro R hR
      have := List.any_eq_false.mp hany R hR
      exact zmod2_ne_one (by simpa using this)
    constructor
    · intro htop
      obtain ⟨σ0, -, h0⟩ := Finset.exists_mem_eq_inf
        (Finset.univ : Finset (Fin (freeCols (elimRun target A)).length → ZMod 2))
        ⟨fun _ => 0, Finset.mem_univ _⟩
        (fun σ => ((weight (enumSol (elimRun target A) σ) : ℕ) : WithTop ℕ))
      rw [htop] at h0
      exact absurd h0.symm (WithTop.coe_ne_top)
    · intro hno
      exact absurd ⟨_, Final.enumSol_sat H hcons fun _ => 0⟩ hno
  · rw [gf2_of_any_true hany]
    simp only [true_iff]
    obtain ⟨R, hR, hR1⟩ := List.any_eq_true.mp hany
    exact Final.inconsistent_no_sol H hR (by simpa using hR1)

/-- On a consistent system, gf2_solve_minweight returns the weight of a
minimum-Hamming-weight solution. -/
theorem gf2_solve_minweight_feasible {n m : ℕ} (target : Fin n → ZMod 2)
    (A : Fin m → Fin n → ZMod 2) (h : ∃ x, satList (buildM target A) x) :
    ∃ x0, satList (buildM target A) x0 ∧
      gf2_solve_minweight target A = ((weight x0 : ℕ) : WithTop ℕ) ∧
      ∀ y, satList (buildM target A) y → weight x0 ≤ weight y := by
  have H := elimRun_inv target A
  rcases hany : (elimRun target A).rest.any fun R => decide (R.2 = 1) with - | -
  · rw [gf2_of_any_false hany]
    have hcons : ∀ R ∈ (elimRun target A).rest, R.2 = 0 := by
      intro R hR
      have := List.any_eq_false.mp hany R hR
      exact zmod2_ne_one (by simpa using this)
    obtain ⟨σ0, -, h0⟩ := Finset.exists_mem_eq_inf
      (Finset.univ : Finset (Fin (freeCols (elimRun target A)).length → ZMod 2))
      ⟨fun _ => 0, Finset.mem_univ _⟩
      (fun σ => ((weight (enumSol (elimRun target A) σ) : ℕ) : WithTop ℕ))
    refine ⟨enumSol (elimRun target A) σ0, Final.enumSol_sat H hcons σ0, h0, ?_⟩
    intro y hy
    have hyle : Finset.univ.inf
        (fun σ : Fin (freeCols (elimRun target A)).length → ZMod 2 =>
          ((weight (enumSol (elimRun target A) σ) : ℕ) : WithTop ℕ)) ≤
        ((weight (enumSol (elimRun target A)
          (fun i => y ((freeCols (elimRun target A)).get i))) : ℕ) : WithTop ℕ) :=
      Finset.inf_le (Finset.mem_univ _)
    rw [← Final.sat_eq_enumSol H hcons y hy, h0] at hyle
    exact_mod_cast hyle
  · exfalso
    obtain ⟨R, hR, hR1⟩ := List.any_eq_true.mp hany
    exact Final.inconsistent_no_sol H hR (by simpa using hR1) h

/-- The system handed to gf2_solve_minweight by the parse_line_part1
pipeline has the same solutions as the direct toggle simulation of
solve_gf2. -/
lemma satList_toggle_iff {n m : ℕ} (target : Fin n → ZMod 2)
    (buttons : Fin m → List (Fin n)) (x : Fin m → ZMod 2) :
    satList (buildM target (toggleMatrix buttons)) x ↔
      pressState buttons x = target := by
  rw [satList_buildM, funext_iff]
  constructor
  · intro h i
    rw [pressState_eq_sum_toggle]
    rw [← h i]
  · intro h i
    rw [← h i, pressState_eq_sum_toggle]

/-- On feasible machines the brute-force enumeration and the
field-elimination solver return the same minimum. -/
theorem solve_gf2_eq_minweight {n m : ℕ} (target : Fin n → ZMod 2)
    (buttons : Fin m → List (Fin n))
    (h : ∃ x, pressState buttons x = target) :
    ((solve_gf2 target buttons : ℕ) : WithTop ℕ) =
      gf2_solve_minweight target (toggleMatrix buttons) := by
  obtain ⟨x0, hx0, hval0, hmin0⟩ := solve_gf2_feasible target buttons h
  obtain ⟨x1, hx1, hval1, hmin1⟩ := gf2_solve_minweight_feasible target
    (toggleMatrix buttons) ⟨_, (satList_toggle_iff target buttons _).mpr h.choose_spec⟩
  rw [hval0, hval1]
  norm_cast
  exact le_antisymm (hmin0 x1 ((satList_toggle_iff target buttons x1).mp hx1))
    (hmin1 x0 ((satList_toggle_iff target buttons x0).mpr hx0))

/-! ### The counter (increment) model -/

/-- The increment row built by parse_line_part2: row[idx] += 1 per
occurrence, so entry i counts the occurrences of index i in the button. -/
def incRow {n : ℕ} (btn : List (Fin n)) : Fin n → ℕ := fun i => btn.count i

/-- The increment matrix of day10_chatgpt.py (one row per button). -/
def incMatrix {n m : ℕ} (buttons : Fin m → List (Fin n)) :
    Fin m → Fin n → ℕ := fun j => incRow (buttons j)

/-- The coefficient matrix built inside solve_joltage (day10.py):
A[i][j] = 1 if button j affects counter i. The source assigns 1 instead
of incrementing, so a repeated index still contributes one. -/
def joltMatrix {n m : ℕ} (buttons : Fin m → List (Fin n)) :
    Fin n → Fin m → ℕ := fun i j => if i ∈ buttons j then 1 else 0

/-- The increment equations of the integer program: pressing button j
exactly x j times makes every counter i reach t i. -/
def countersReach {n m : ℕ} (B : Fin m → Fin n → ℕ) (t : Fin n → ℕ)
    (x : Fin m → ℕ) : Prop := ∀ i, (∑ j, x j * B j i) = t i

/-- Feasibility of the integer program. -/
def intFeasible {n m : ℕ} (B : Fin m → Fin n → ℕ) (t : Fin n → ℕ) : Prop :=
  ∃ x, countersReach B t x

/-- Some press vector of total press count s reaches the targets. -/
def sumAchievable {n m : ℕ} (B : Fin m → Fin n → ℕ) (t : Fin n → ℕ)
    (s : ℕ) : Prop := ∃ x, (∑ j, x j) = s ∧ countersReach B t x

lemma intFeasible_iff_bounded {n m : ℕ} (B : Fin m → Fin n → ℕ)
    (t : Fin n → ℕ) :
    intFeasible B t ↔ ∃ x : Fin m → Fin ((∑ i, t i) + 1),
      countersReach B t (fun j => (x j : ℕ)) := by
  constructor
  · rintro ⟨x, hx⟩
    classical
    set x' : Fin m → ℕ := fun j => if ∀ i, B j i = 0 then 0 else x j with hx'
    have hreach : countersReach B t x' := by
      intro i
      rw [← hx i]
      refine Finset.sum_congr rfl fun j _ => ?_
      by_cases hz : ∀ i, B j i = 0
      · rw [hz i, mul_zero, mul_zero]
      · simp only [hx', if_neg hz]
    have hbound : ∀ j, x' j < (∑ i, t i) + 1 := by
      intro j
      rw [Nat.lt_succ_iff]
      by_cases hz : ∀ i, B j i = 0
      · simp [hx', if_pos hz]
      · push_neg at hz
        obtain ⟨i, hi⟩ := hz
        calc x' j ≤ x' j * B j i := Nat.le_mul_of_pos_right _ (Nat.pos_of_ne_zero hi)
        _ ≤ ∑ j', x' j' * B j' i := Finset.single_le_sum
            (fun j' _ => Nat.zero_le (x' j' * B j' i)) (Finset.mem_univ j)
        _ = t i := hreach i
        _ ≤ ∑ i', t i' := Finset.single_le_sum
            (fun i' _ => Nat.zero_le (t i')) (Finset.mem_univ i)
    exact ⟨fun j => ⟨x' j, hbound j⟩, hreach⟩
  · rintro ⟨x, hx⟩
    exact ⟨fun j => (x j : ℕ), hx⟩

lemma sumAchievable_iff_bounded {n m : ℕ} (B : Fin m → Fin n → ℕ)
    (t : Fin n → ℕ) (s : ℕ) :
    sumAchievable B t s ↔ ∃ x : Fin m → Fin (s + 1),
      (∑ j, (x j : ℕ)) = s ∧ countersReach B t (fun j => (x j : ℕ)) := by
  constructor
  · rintro ⟨x, hs, hx⟩
    have hbound : ∀ j, x j < s + 1 := by
      intro j
      rw [Nat.lt_succ_iff, ← hs]
      exact Finset.single_le_sum (fun j' _ => Nat.zero_le (x j')) (Finset.mem_univ j)
    exact ⟨fun j => ⟨x j, hbound j⟩, hs, hx⟩
  · rintro ⟨x, hs, hx⟩
    exact ⟨fun j => (x j : ℕ), hs, hx⟩

instance countersReach_dec {n m : ℕ} (B : Fin m → Fin n → ℕ) (t : Fin n → ℕ)
    (x : Fin m → ℕ) : Decidable (countersReach B t x) :=
  decidable_of_iff (∀ i, (∑ j, x j * B j i) = t i) Iff.rfl

instance intFeasible_dec {n m : ℕ} (B : Fin m → Fin n → ℕ) (t : Fin n → ℕ) :
    Decidable (intFeasible B t) :=
  decidable_of_iff _ (intFeasible_iff_bounded B t).symm

instance sumAchievable_dec {n m : ℕ} (B : Fin m → Fin n → ℕ) (t : Fin n → ℕ) :
    DecidablePred (sumAchievable B t) :=
  fun s => decidable_of_iff _ (sumAchievable_iff_bounded B t s).symm

lemma intFeasible.sum_exists {n m : ℕ} {B : Fin m → Fin n → ℕ}
    {t : Fin n → ℕ} (h : intFeasible B t) : ∃ s, sumAchievable B t s :=
  h.elim fun x hx => ⟨∑ j, x j, x, rfl, hx⟩

/-- solve_machine_minpresses from day10_chatgpt.py. The source builds the
integer program min Σ x subject to Aᵀx = target, x ≥ 0 integer, and hands
it to pulp's CBC solver, raising ValueError when the status is not
Optimal; the external exact solver is modelled by its contract, i.e. by
the least achievable press sum, and the raise by the value none. -/
def solve_machine_minpresses {n m : ℕ} (t : Fin n → ℕ)
    (B : Fin m → Fin n → ℕ) : Option ℕ :=
  if h : intFeasible B t then some (Nat.find h.sum_exists) else none

/-- On infeasible integer programs solve_machine_minpresses raises
(returns none). -/
theorem solve_machine_infeasible {n m : ℕ} (t : Fin n → ℕ)
    (B : Fin m → Fin n → ℕ) (h : ¬ intFeasible B t) :
    solve_machine_minpresses t B = none := by
  rw [solve_machine_minpresses, dif_neg h]

/-- On feasible integer programs solve_machine_minpresses returns the
minimum total press count. -/
theorem solve_machine_feasible {n m : ℕ} (t : Fin n → ℕ)
    (B : Fin m → Fin n → ℕ) (h : intFeasible B t) :
    ∃ R, solve_machine_minpresses t B = some R ∧ sumAchievable B t R ∧
      ∀ y, countersReach B t y → R ≤ ∑ j, y j := by
  refine ⟨Nat.find h.sum_exists, by rw [solve_machine_minpresses, dif_pos h],
    Nat.find_spec h.sum_exists, ?_⟩
  intro y hy
  exact Nat.find_min' h.sum_exists ⟨y, rfl, hy⟩

/-! ### solve_joltage (day10.py): LP relaxation, rounding, ILP fallback -/

/-- numpy's np.round: round half to even (banker's rounding). -/
def roundHalfEven (q : ℚ) : ℤ :=
  if q - ⌊q⌋ < 1/2 then ⌊q⌋
  else if 1/2 < q - ⌊q⌋ then ⌊q⌋ + 1
  else if Even ⌊q⌋ then ⌊q⌋ else ⌊q⌋ + 1

/-- Feasibility for the continuous relaxation solved by linprog in
solve_joltage: x ≥ 0 (bounds) and A @ x = target (A_eq, b_eq), over ℚ. -/
def lpFeasible {n m : ℕ} (A : Fin n → Fin m → ℕ) (t : Fin n → ℕ)
    (x : Fin m → ℚ) : Prop :=
  (∀ j, 0 ≤ x j) ∧ ∀ i, (∑ j, (A i j : ℚ) * x j) = (t i : ℚ)

/-- Contract of the external LP call (scipy.optimize.linprog, method
highs): failure is reported exactly on infeasible programs, and success
returns an optimal solution of min Σx subject to A @ x = target, x ≥ 0. -/
def lpSpec {n m : ℕ} (A : Fin n → Fin m → ℕ) (t : Fin n → ℕ) :
    Option (Fin m → ℚ) → Prop
  | none => ¬ ∃ x, lpFeasible A t x
  | some xs => lpFeasible A t xs ∧
      ∀ y, lpFeasible A t y → (∑ j, xs j) ≤ ∑ j, y j

/-- The acceptance test applied to each rounded candidate in
solve_joltage: np.all(A @ x == b_eq) and np.all(x >= 0). -/
def acceptRounding {n m : ℕ} (A : Fin n → Fin m → ℕ) (t : Fin n → ℕ)
    (r : Fin m → ℤ) : Prop :=
  (∀ i, (∑ j, (A i j : ℤ) * r j) = (t i : ℤ)) ∧ ∀ j, 0 ≤ r j

instance acceptRounding_dec {n m : ℕ} (A : Fin n → Fin m → ℕ)
    (t : Fin n → ℕ) (r : Fin m → ℤ) : Decidable (acceptRounding A t r) :=
  decidable_of_iff ((∀ i, (∑ j, (A i j : ℤ) * r j) = (t i : ℤ)) ∧ ∀ j, 0 ≤ r j)
    Iff.rfl

/-- Stage 4 of solve_joltage: the exact integer program handed to
scipy.optimize.milp, modelled by its contract (least achievable press
sum), with float('inf') = ⊤ returned on infeasibility. -/
def milpStage {n m : ℕ} (A : Fin n → Fin m → ℕ) (t : Fin n → ℕ) : WithTop ℕ :=
  if h : intFeasible (fun j i => A i j) t
  then ((Nat.find h.sum_exists : ℕ) : WithTop ℕ) else ⊤

/-- solve_joltage from day10.py, with the outcome of the external LP call
passed in as lp (none models result.success being false). The
coefficient matrix uses set semantics (A[i][j] = 1). The LP optimum is
rounded to nearest / up / down, the first candidate passing the
acceptance test is returned, and otherwise the exact integer program
decides; infeasibility yields the sentinel float('inf') = ⊤. -/
def solve_joltage {n m : ℕ} (lp : Option (Fin m → ℚ)) (t : Fin n → ℕ)
    (buttons : Fin m → List (Fin n)) : WithTop ℕ :=
  match lp with
  | none => ⊤
  | some xs =>
    if acceptRounding (joltMatrix buttons) t (fun j => roundHalfEven (xs j)) then
      (((∑ j, roundHalfEven (xs j)).toNat : ℕ) : WithTop ℕ)
    else if acceptRounding (joltMatrix buttons) t (fun j => ⌈xs j⌉) then
      (((∑ j, (⌈xs j⌉ : ℤ)).toNat : ℕ) : WithTop ℕ)
    else if acceptRounding (joltMatrix buttons) t (fun j => ⌊xs j⌋) then
      (((∑ j, (⌊xs j⌋ : ℤ)).toNat : ℕ) : WithTop ℕ)
    else milpStage (joltMatrix buttons) t

lemma roundHalfEven_intCast (z : ℤ) : roundHalfEven (z : ℚ) = z := by
  unfold roundHalfEven
  rw [Int.floor_intCast]
  rw [if_pos (by norm_num)]

/-- Each of the three rounding strategies moves a coordinate by at most
one, and moves it at all only when the coordinate is not an integer
(hence strictly positive when non-negative). -/
lemma roundHalfEven_near (q : ℚ) (h0 : 0 ≤ q) :
    ((roundHalfEven q : ℚ) ≠ q → 0 < q) ∧ |(roundHalfEven q : ℚ) - q| ≤ 1 := by
  have hf0 : (0 : ℚ) ≤ q - ⌊q⌋ := sub_nonneg.mpr (Int.floor_le q)
  have hf1 : q - ⌊q⌋ < 1 := by
    have := Int.lt_floor_add_one q
    linarith
  constructor
  · intro hne
    rcases h0.eq_or_lt with h | h
    · exfalso
      apply hne
      rw [← h]
      have : roundHalfEven ((0 : ℤ) : ℚ) = (0 : ℤ) := roundHalfEven_intCast 0
      simpa using this
    · exact h
  · unfold roundHalfEven
    split_ifs <;> rw [abs_le] <;> push_cast <;> constructor <;> linarith

lemma ceil_near (q : ℚ) (h0 : 0 ≤ q) :
    (((⌈q⌉ : ℤ) : ℚ) ≠ q → 0 < q) ∧ |((⌈q⌉ : ℤ) : ℚ) - q| ≤ 1 := by
  have h1 : q ≤ ((⌈q⌉ : ℤ) : ℚ) := Int.le_ceil q
  have h2 : ((⌈q⌉ : ℤ) : ℚ) < q + 1 := Int.ceil_lt_add_one q
  constructor
  · intro hne
    rcases h0.eq_or_lt with h | h
    · exfalso
      apply hne
      rw [← h]
      simp
    · exact h
  · rw [abs_le]; constructor <;> linarith

lemma floor_near (q : ℚ) (h0 : 0 ≤ q) :
    (((⌊q⌋ : ℤ) : ℚ) ≠ q → 0 < q) ∧ |((⌊q⌋ : ℤ) : ℚ) - q| ≤ 1 := by
  have h1 : ((⌊q⌋ : ℤ) : ℚ) ≤ q := Int.floor_le q
  have h2 : q < ((⌊q⌋ : ℤ) : ℚ) + 1 := Int.lt_floor_add_one q
  constructor
  · intro hne
    rcases h0.eq_or_lt with h | h
    · exfalso
      apply hne
      rw [← h]
      simp
    · exact h
  · rw [abs_le]; constructor <;> linarith

lemma milpStage_infeasible {n m : ℕ} {A : Fin n → Fin m → ℕ} {t : Fin n → ℕ}
    (h : ¬ intFeasible (fun j i => A i j) t) : milpStage A t = ⊤ := by
  rw [milpStage, dif_neg h]

lemma milpStage_feasible {n m : ℕ} {A : Fin n → Fin m → ℕ} {t : Fin n → ℕ}
    (h : intFeasible (fun j i => A i j) t) :
    ∃ R : ℕ, milpStage A t = ((R : ℕ) : WithTop ℕ) ∧
      sumAchievable (fun j i => A i j) t R ∧
      ∀ y, countersReach (fun j i => A i j) t y → R ≤ ∑ j, y j := by
  refine ⟨Nat.find h.sum_exists, by rw [milpStage, dif_pos h],
    Nat.find_spec h.sum_exists, ?_⟩
  intro y hy
  exact Nat.find_min' h.sum_exists ⟨y, rfl, hy⟩

/-- Key step behind the rounding fast path: an accepted rounded candidate
differs from the LP optimum by a null-space direction supported on
fractional, hence strictly positive, coordinates; perturbing the LP
optimum a little along that direction in both ways stays feasible, so LP
optimality forces the direction to have coordinate sum zero. -/
lemma accepted_sum_eq_lp {n m : ℕ} (A : Fin n → Fin m → ℕ) (t : Fin n → ℕ)
    (xs : Fin m → ℚ) (hxs : lpFeasible A t xs)
    (hopt : ∀ y, lpFeasible A t y → (∑ j, xs j) ≤ ∑ j, y j)
    (r : Fin m → ℤ) (hacc : acceptRounding A t r)
    (hnear : ∀ j, ((r j : ℚ) ≠ xs j → 0 < xs j) ∧ |(r j : ℚ) - xs j| ≤ 1) :
    (∑ j, (r j : ℚ)) = ∑ j, xs j := by
  classical
  set u : Fin m → ℚ := fun j => (r j : ℚ) - xs j with hu
  have hAr : ∀ i, (∑ j, (A i j : ℚ) * (r j : ℚ)) = (t i : ℚ) := by
    intro i
    have h1 := congrArg (fun z : ℤ => (z : ℚ)) (hacc.1 i)
    push_cast at h1
    exact h1
  have hAu : ∀ i, (∑ j, (A i j : ℚ) * u j) = 0 := by
    intro i
    simp only [hu, mul_sub, Finset.sum_sub_distrib]
    rw [hAr i, hxs.2 i, sub_self]
  set S : Finset (Fin m) := Finset.univ.filter (fun j => u j ≠ 0) with hSdef
  by_cases hS : S.Nonempty
  · set ε : ℚ := S.inf' hS xs with hε
    have hmemS : ∀ j ∈ S, u j ≠ 0 := by
      intro j hj
      exact (Finset.mem_filter.mp hj).2
    have hε0 : 0 < ε := by
      rw [hε, Finset.lt_inf'_iff]
      intro j hj
      exact (hnear j).1 (sub_ne_zero.mp (hmemS j hj))
    have hεle : ∀ j ∈ S, ε ≤ xs j := fun j hj => Finset.inf'_le xs hj
    have hfeas : ∀ d : ℚ, |d| ≤ ε → lpFeasible A t (fun j => xs j + d * u j) := by
      intro d hd
      constructor
      · intro j
        by_cases hj : u j = 0
        · simp [hj, hxs.1 j]
        · have hjS : j ∈ S := Finset.mem_filter.mpr ⟨Finset.mem_univ j, hj⟩
          have habs : |d * u j| ≤ ε := by
            rw [abs_mul]
            calc |d| * |u j| ≤ ε * 1 :=
              mul_le_mul hd (hnear j).2 (abs_nonneg _) hε0.le
            _ = ε := mul_one ε
          have h1 : -(d * u j) ≤ ε := le_trans (neg_le_abs _) habs
          have h2 := hεle j hjS
          show 0 ≤ xs j + d * u j
          linarith
      · intro i
        have h3 : (∑ j, (A i j : ℚ) * (d * u j)) = d * ∑ j, (A i j : ℚ) * u j := by
          rw [Finset.mul_sum]
          exact Finset.sum_congr rfl fun j _ => by ring
        simp only [mul_add, Finset.sum_add_distrib]
        rw [hxs.2 i, h3, hAu i, mul_zero, add_zero]
    have hsum : ∀ d : ℚ, (∑ j, (xs j + d * u j)) = (∑ j, xs j) + d * ∑ j, u j := by
      intro d
      rw [Finset.sum_add_distrib, Finset.mul_sum]
    have hple := hopt _ (hfeas ε (by rw [abs_of_pos hε0]))
    have hmle := hopt _ (hfeas (-ε) (by rw [abs_neg, abs_of_pos hε0]))
    rw [hsum ε] at hple
    rw [hsum (-ε)] at hmle
    have hu0 : (∑ j, u j) = 0 := by
      have hge : 0 ≤ ε * ∑ j, u j := by linarith
      have hle' : ε * ∑ j, u j ≤ 0 := by
        have : -ε * ∑ j, u j ≥ 0 := by linarith
        nlinarith
      have := le_antisymm hle' hge
      rcases mul_eq_zero.mp this with h | h
      · exact absurd h (ne_of_gt hε0)
      · exact h
    have : (∑ j, (r j : ℚ)) = ∑ j, (xs j + u j) := by
      refine Finset.sum_congr rfl fun j _ => ?_
      simp [hu]
    rw [this, Finset.sum_add_distrib, hu0, add_zero]
  · have hall : ∀ j, u j = 0 := by
      intro j
      by_contra hj
      exact hS ⟨j, Finset.mem_filter.mpr ⟨Finset.mem_univ j, hj⟩⟩
    refine Finset.sum_congr rfl fun j _ => ?_
    have := hall j
    rw [hu] at this
    have := sub_eq_zero.mp (by simpa using this)
    exact this

/-- A candidate accepted by the rounding fast path returns exactly the
value of the exact integer-program stage. -/
lemma accepted_eq_milp {n m : ℕ} {A : Fin n → Fin m → ℕ} {t : Fin n → ℕ}
    {xs : Fin m → ℚ} (hxs : lpFeasible A t xs)
    (hopt : ∀ y, lpFeasible A t y → (∑ j, xs j) ≤ ∑ j, y j)
    {r : Fin m → ℤ} (hacc : acceptRounding A t r)
    (hnear : ∀ j, ((r j : ℚ) ≠ xs j → 0 < xs j) ∧ |(r j : ℚ) - xs j| ≤ 1) :
    (((∑ j, r j).toNat : ℕ) : WithTop ℕ) = milpStage A t := by
  classical
  set xN : Fin m → ℕ := fun j => (r j).toNat with hxN
  have hcast : ∀ j, ((xN j : ℤ)) = r j := fun j => Int.toNat_of_nonneg (hacc.2 j)
  have hreach : countersReach (fun j i => A i j) t xN := by
    intro i
    have hz : (∑ j, ((xN j : ℤ) * (A i j : ℤ))) = ((t i : ℕ) : ℤ) := by
      rw [← hacc.1 i]
      exact Finset.sum_congr rfl fun j _ => by rw [hcast j]; ring
    exact_mod_cast hz
  have hfeasInt : intFeasible (fun j i => A i j) t := ⟨xN, hreach⟩
  have hsumN : ((∑ j, xN j : ℕ) : ℤ) = ∑ j, r j := by
    push_cast
    exact Finset.sum_congr rfl fun j _ => hcast j
  have htn : (∑ j, r j).toNat = ∑ j, xN j := by
    have hnn : (0 : ℤ) ≤ ∑ j, r j :=
      Finset.sum_nonneg fun j _ => hacc.2 j
    have := Int.toNat_of_nonneg hnn
    omega
  obtain ⟨R, hRval, hRach, hRmin⟩ := milpStage_feasible hfeasInt
  have hle1 : R ≤ ∑ j, xN j := hRmin xN hreach
  have hle2 : (∑ j, xN j) ≤ R := by
    obtain ⟨x', hs', hr'⟩ := hRach
    have hy : lpFeasible A t (fun j => (x' j : ℚ)) := by
      constructor
      · intro j; positivity
      · intro i
        have := hr' i
        have hq : ((∑ j, x' j * A i j : ℕ) : ℚ) = ((t i : ℕ) : ℚ) := by
          exact_mod_cast congrArg (fun z : ℕ => (z : ℚ)) this
        push_cast at hq
        rw [← hq]
        exact Finset.sum_congr rfl fun j _ => by ring
    have h1 := hopt _ hy
    have h2 : (∑ j, (r j : ℚ)) = ∑ j, xs j :=
      accepted_sum_eq_lp A t xs hxs hopt r hacc hnear
    have h3 : ((∑ j, xN j : ℕ) : ℚ) = ∑ j, (r j : ℚ) := by
      exact_mod_cast congrArg (fun z : ℤ => (z : ℚ)) hsumN
    have h4 : (∑ j, ((x' j : ℕ) : ℚ)) = ((R : ℕ) : ℚ) := by
      rw [← hs']; push_cast; rfl
    have : ((∑ j, xN j : ℕ) : ℚ) ≤ ((R : ℕ) : ℚ) := by
      rw [h3, h2, ← h4]
      exact h1
    exact_mod_cast this
  rw [htn, ← le_antisymm hle1 hle2, hRval]

/-- The observable behavior of solve_joltage coincides with the pure
integer-program stage whenever the LP oracle meets its contract: the
rounding fast path never changes the returned value. -/
theorem solve_joltage_eq_milp {n m : ℕ} (lp : Option (Fin m → ℚ))
    (t : Fin n → ℕ) (buttons : Fin m → List (Fin n))
    (hlp : lpSpec (joltMatrix buttons) t lp) :
    solve_joltage lp t buttons = milpStage (joltMatrix buttons) t := by
  cases lp with
  | none =>
    have hno : ¬ intFeasible (fun j i => joltMatrix buttons i j) t := by
      rintro ⟨x, hx⟩
      refine hlp ⟨fun j => (x j : ℚ), fun j => by positivity, ?_⟩
      intro i
      have := hx i
      have hq : ((∑ j, x j * joltMatrix buttons i j : ℕ) : ℚ) = ((t i : ℕ) : ℚ) :=
        congrArg (fun z : ℕ => (z : ℚ)) this
      push_cast at hq
      rw [← hq]
      exact Finset.sum_congr rfl fun j _ => by ring
    show ⊤ = milpStage (joltMatrix buttons) t
    rw [milpStage_infeasible hno]
  | some xs =>
    obtain ⟨hfe, hopt⟩ := hlp
    show (if acceptRounding (joltMatrix buttons) t (fun j => roundHalfEven (xs j))
      then (((∑ j, roundHalfEven (xs j)).toNat : ℕ) : WithTop ℕ)
      else if acceptRounding (joltMatrix buttons) t (fun j => ⌈xs j⌉)
      then (((∑ j, (⌈xs j⌉ : ℤ)).toNat : ℕ) : WithTop ℕ)
      else if acceptRounding (joltMatrix buttons) t (fun j => ⌊xs j⌋)
      then (((∑ j, (⌊xs j⌋ : ℤ)).toNat : ℕ) : WithTop ℕ)
      else milpStage (joltMatrix buttons) t) = milpStage (joltMatrix buttons) t
    split_ifs with h1 h2 h3
    · exact accepted_eq_milp hfe hopt h1
        (fun j => roundHalfEven_near (xs j) (hfe.1 j))
    · exact accepted_eq_milp hfe hopt h2
        (fun j => ceil_near (xs j) (hfe.1 j))
    · exact accepted_eq_milp hfe hopt h3
        (fun j => floor_near (xs j) (hfe.1 j))
    · rfl

/-! ### Aggregation over machine lines (solve_part2) -/

/-- A parsed machine line, as handed to the part-2 pipeline. -/
structure Machine where
  lights : ℕ
  btns : ℕ
  tgt : Fin lights → ℕ
  buttons : Fin btns → List (Fin lights)

/-- solve_part2 from day10.py: sum the per-machine results into a running
total; the sentinel float('inf') of an infeasible machine is absorbed
into the total. The per-machine LP outcomes are passed in as lp. -/
def solve_part2 (lp : (M : Machine) → Option (Fin M.btns → ℚ))
    (ms : List Machine) : WithTop ℕ :=
  (ms.map fun M => solve_joltage (lp M) M.tgt M.buttons).sum

lemma list_sum_eq_top {l : List (WithTop ℕ)} (h : ⊤ ∈ l) : l.sum = ⊤ := by
  induction l with
  | nil => simp at h
  | cons a l ih =>
    rcases List.mem_cons.mp h with rfl | h
    · rw [List.sum_cons, top_add]
    · rw [List.sum_cons, ih h, add_top]

/-- LP duality, weak direction, specialized to 0/1-bounded duals: any
dual vector y whose load on every button is at most one gives a lower
bound on the total press count of any press vector meeting the targets. -/
lemma dual_lower_bound {n m : ℕ} (B : Fin m → Fin n → ℕ) (t : Fin n → ℕ)
    (x : Fin m → ℕ) (hx : countersReach B t x) (y : Fin n → ℕ)
    (hy : ∀ j, (∑ i, y i * B j i) ≤ 1) :
    (∑ i, y i * t i) ≤ ∑ j, x j := by
  calc (∑ i, y i * t i)
      = ∑ i, y i * ∑ j, x j * B j i := by
        refine Finset.sum_congr rfl fun i _ => ?_
        rw [hx i]
  _ = ∑ i, ∑ j, y i * (x j * B j i) := by
        refine Finset.sum_congr rfl fun i _ => ?_
        rw [Finset.mul_sum]
  _ = ∑ j, ∑ i, y i * (x j * B j i) := Finset.sum_comm
  _ = ∑ j, x j * ∑ i, y i * B j i := by
        refine Finset.sum_congr rfl fun j _ => ?_
        rw [Finset.mul_sum]
        exact Finset.sum_congr rfl fun i _ => by ring
  _ ≤ ∑ j, x j * 1 := Finset.sum_le_sum fun j _ => Nat.mul_le_mul_left (x j) (hy j)
  _ = ∑ j, x j := by simp

/-! ### The three example machine lines of the source

The transcription of the example block shared by day10.py and
day10_chatgpt.py, as produced by the parsers:
line 1 is target lights .##., buttons (3) (1,3) (2) (2,3) (0,2) (0,1),
joltages 3,5,4,7; lines 2 and 3 accordingly. -/

def exTarget1 : Fin 4 → ZMod 2 := ![0, 1, 1, 0]

def exButtons1 : Fin 6 → List (Fin 4) := ![[3], [1, 3], [2], [2, 3], [0, 2], [0, 1]]

def exJolt1 : Fin 4 → ℕ := ![3, 5, 4, 7]

def exTarget2 : Fin 5 → ZMod 2 := ![0, 0, 0, 1, 0]

def exButtons2 : Fin 5 → List (Fin 5) :=
  ![[0, 2, 3, 4], [2, 3], [0, 4], [0, 1, 2], [1, 2, 3, 4]]

def exJolt2 : Fin 5 → ℕ := ![7, 5, 12, 7, 2]

def exTarget3 : Fin 6 → ZMod 2 := ![0, 1, 1, 1, 0, 1]

def exButtons3 : Fin 4 → List (Fin 6) :=
  ![[0, 1, 2, 3, 4], [0, 3, 4], [0, 1, 2, 4, 5], [1, 2]]

def exJolt3 : Fin 6 → ℕ := ![10, 11, 11, 5, 10, 5]

lemma ex1_counter :
    solve_machine_minpresses exJolt1 (incMatrix exButtons1) = some 10 := by
  have hfeas : intFeasible (incMatrix exButtons1) exJolt1 :=
    ⟨![1, 5, 0, 1, 3, 0], by decide⟩
  rw [solve_machine_minpresses, dif_pos hfeas]
  congr 1
  rw [Nat.find_eq_iff]
  refine ⟨⟨![1, 5, 0, 1, 3, 0], by decide, by decide⟩, ?_⟩
  rintro k hk ⟨x, hs, hx⟩
  have hlb := dual_lower_bound _ _ x hx ![1, 0, 0, 1] (by decide)
  have hval : (∑ i, (![1, 0, 0, 1] : Fin 4 → ℕ) i * exJolt1 i) = 10 := by decide
  rw [hval] at hlb
  omega

lemma ex2_counter :
    solve_machine_minpresses exJolt2 (incMatrix exButtons2) = some 12 := by
  have hfeas : intFeasible (incMatrix exButtons2) exJolt2 :=
    ⟨![2, 5, 0, 5, 0], by decide⟩
  rw [solve_machine_minpresses, dif_pos hfeas]
  congr 1
  rw [Nat.find_eq_iff]
  refine ⟨⟨![2, 5, 0, 5, 0], by decide, by decide⟩, ?_⟩
  rintro k hk ⟨x, hs, hx⟩
  have hlb := dual_lower_bound _ _ x hx ![0, 0, 1, 0, 0] (by decide)
  have hval : (∑ i, (![0, 0, 1, 0, 0] : Fin 5 → ℕ) i * exJolt2 i) = 12 := by decide
  rw [hval] at hlb
  omega

lemma ex3_counter :
    solve_machine_minpresses exJolt3 (incMatrix exButtons3) = some 11 := by
  have hfeas : intFeasible (incMatrix exButtons3) exJolt3 :=
    ⟨![5, 0, 5, 1], by decide⟩
  rw [solve_machine_minpresses, dif_pos hfeas]
  congr 1
  rw [Nat.find_eq_iff]
  refine ⟨⟨![5, 0, 5, 1], by decide, by decide⟩, ?_⟩
  rintro k hk ⟨x, hs, hx⟩
  have hlb := dual_lower_bound _ _ x hx ![0, 0, 1, 0, 0, 0] (by decide)
  have hval : (∑ i, (![0, 0, 1, 0, 0, 0] : Fin 6 → ℕ) i * exJolt3 i) = 11 := by decide
  rw [hval] at hlb
  omega

lemma ex1_gf2 : solve_gf2 exTarget1 exButtons1 = 2 := by decide

lemma ex2_gf2 : solve_gf2 exTarget2 exButtons2 = 3 := by decide

lemma ex3_gf2 : solve_gf2 exTarget3 exButtons3 = 2 := by decide

lemma ex1_minweight :
    gf2_solve_minweight exTarget1 (toggleMatrix exButtons1) = ((2 : ℕ) : WithTop ℕ) := by
  rw [← solve_gf2_eq_minweight exTarget1 exButtons1
    ⟨![0, 0, 0, 0, 1, 1], by decide⟩, ex1_gf2]

lemma ex2_minweight :
    gf2_solve_minweight exTarget2 (toggleMatrix exButtons2) = ((3 : ℕ) : WithTop ℕ) := by
  rw [← solve_gf2_eq_minweight exTarget2 exButtons2
    ⟨![0, 0, 1, 1, 1], by decide⟩, ex2_gf2]

lemma ex3_minweight :
    gf2_solve_minweight exTarget3 (toggleMatrix exButtons3) = ((2 : ℕ) : WithTop ℕ) := by
  rw [← solve_gf2_eq_minweight exTarget3 exButtons3
    ⟨![0, 1, 1, 0], by decide⟩, ex3_gf2]

/-- On duplicate-free buttons the 0/1 indicator matrix of solve_joltage
(transposed to button-major order) agrees with the occurrence-count
increment matrix. -/
lemma joltMatrix_eq_incMatrix {n m : ℕ} (buttons : Fin m → List (Fin n))
    (h : ∀ j, (buttons j).Nodup) :
    (fun j i => joltMatrix buttons i j) = incMatrix buttons := by
  funext j i
  show (if i ∈ buttons j then 1 else 0) = (buttons j).count i
  by_cases hmem : i ∈ buttons j
  · rw [if_pos hmem]
    have hle : (buttons j).count i ≤ 1 := List.nodup_iff_count_le_one.mp (h j) i
    have hpos : 0 < (buttons j).count i := List.count_pos_iff.mpr hmem
    omega
  · rw [if_neg hmem, List.count_eq_zero_of_not_mem hmem]

/-- The LP oracle contract holds for the constant answer 2 on the
one-counter machine with target 2 and a single button affecting the
counter: the equality constraint pins every feasible point to 2. -/
lemma lpSpec_two_single (l : List (Fin 1)) (hmem : (0 : Fin 1) ∈ l) :
    lpSpec (joltMatrix (![l] : Fin 1 → List (Fin 1))) (![2] : Fin 1 → ℕ)
      (some ![(2 : ℚ)]) := by
  constructor
  · constructor
    · intro j; fin_cases j; norm_num
    · intro i; fin_cases i; simp [joltMatrix, hmem, Fin.sum_univ_one]
  · rintro y ⟨hy0, hyeq⟩
    have h0 := hyeq 0
    simp [joltMatrix, hmem, Fin.sum_univ_one] at h0 ⊢
    linarith

/-! ### The claims -/

/-- Claim C1: for every machine whose toggle system is feasible, the
Binary Solver (gf2_solve_minweight on the parsed toggle matrix) returns
the minimum Hamming weight R: some press vector with exactly R ones
toggles the lights to the target, and no vector with fewer ones does. -/
theorem C1_binary_solver_minweight {n m : ℕ} (target : Fin n → ZMod 2)
    (buttons : Fin m → List (Fin n))
    (h : ∃ x, pressState buttons x = target) :
    ∃ R : ℕ, gf2_solve_minweight target (toggleMatrix buttons) = ((R : ℕ) : WithTop ℕ) ∧
      (∃ x, weight x = R ∧ pressState buttons x = target) ∧
      ∀ y, pressState buttons y = target → R ≤ weight y := by
  obtain ⟨x, hx⟩ := h
  obtain ⟨x0, hsat, hval, hmin⟩ := gf2_solve_minweight_feasible target
    (toggleMatrix buttons) ⟨x, (satList_toggle_iff target buttons x).mpr hx⟩
  exact ⟨weight x0, hval,
    ⟨x0, rfl, (satList_toggle_iff target buttons x0).mp hsat⟩,
    fun y hy => hmin y ((satList_toggle_iff target buttons y).mpr hy)⟩

/-- Witness for C1: the first example machine, where pressing buttons
(0,2) and (0,1) reaches .##. . -/
theorem C1_binary_solver_minweight_witness :
    ∃ R : ℕ, gf2_solve_minweight exTarget1 (toggleMatrix exButtons1) =
      ((R : ℕ) : WithTop ℕ) ∧
      (∃ x, weight x = R ∧ pressState exButtons1 x = exTarget1) ∧
      ∀ y, pressState exButtons1 y = exTarget1 → R ≤ weight y :=
  C1_binary_solver_minweight exTarget1 exButtons1 ⟨![0, 0, 0, 0, 1, 1], by decide⟩

/-- Counterexample to C2 as stated: on the one-counter machine whose only
button lists index 0 twice, with target count 2, day10.py's solve_joltage
returns 2 under an LP oracle meeting its contract — its coefficient
matrix is the 0/1 indicator, so it never sees that one press already
applies two increments — although the true minimum press sum is 1. -/
theorem C2_counter_solver_minsum_cex :
    lpSpec (joltMatrix (![[0, 0]] : Fin 1 → List (Fin 1))) (![2] : Fin 1 → ℕ)
      (some ![(2 : ℚ)]) ∧
    solve_joltage (some ![(2 : ℚ)]) (![2] : Fin 1 → ℕ)
      (![[0, 0]] : Fin 1 → List (Fin 1)) = ((2 : ℕ) : WithTop ℕ) ∧
    (∑ j, (![1] : Fin 1 → ℕ) j) = 1 ∧
    countersReach (incMatrix (![[0, 0]] : Fin 1 → List (Fin 1)))
      (![2] : Fin 1 → ℕ) ![1] ∧
    ¬ (2 : ℕ) ≤ 1 := by
  have hlp := lpSpec_two_single [0, 0] (by decide)
  refine ⟨hlp, ?_, by decide, by decide, by decide⟩
  rw [solve_joltage_eq_milp _ _ _ hlp]
  have hfe : intFeasible
      (fun j i => joltMatrix (![[0, 0]] : Fin 1 → List (Fin 1)) i j) ![2] :=
    ⟨![2], by decide⟩
  obtain ⟨R, hval, hach, hmin⟩ := milpStage_feasible hfe
  have hR2 : R = 2 := by
    obtain ⟨x, hs, hr⟩ := hach
    have h0 := hr 0
    simp [joltMatrix, Fin.sum_univ_one] at h0
    rw [Fin.sum_univ_one] at hs
    omega
  rw [hval, hR2]

/-- Claim C2, amended: for every machine whose increment system is
feasible, the chatgpt Counter Solver (solve_machine_minpresses) returns
the minimum press sum; day10.py's solve_joltage (under its LP-oracle
contract) also does provided no button lists a duplicated index — in
general it optimizes its own 0/1-indicator system, which departs from
the true increments exactly on duplicates. -/
theorem C2_counter_solver_minsum {n m : ℕ} (t : Fin n → ℕ)
    (buttons : Fin m → List (Fin n)) :
    (intFeasible (incMatrix buttons) t →
      ∃ R : ℕ, solve_machine_minpresses t (incMatrix buttons) = some R ∧
        (∃ x, (∑ j, x j) = R ∧ countersReach (incMatrix buttons) t x) ∧
        ∀ y, countersReach (incMatrix buttons) t y → R ≤ ∑ j, y j) ∧
    (∀ lp, lpSpec (joltMatrix buttons) t lp → (∀ j, (buttons j).Nodup) →
      intFeasible (incMatrix buttons) t →
      ∃ R : ℕ, solve_joltage lp t buttons = ((R : ℕ) : WithTop ℕ) ∧
        (∃ x, (∑ j, x j) = R ∧ countersReach (incMatrix buttons) t x) ∧
        ∀ y, countersReach (incMatrix buttons) t y → R ≤ ∑ j, y j) := by
  constructor
  · intro h
    obtain ⟨R, hval, hach, hmin⟩ := solve_machine_feasible t (incMatrix buttons) h
    exact ⟨R, hval, hach, hmin⟩
  · intro lp hlp hnd hfeas
    have hmat := joltMatrix_eq_incMatrix buttons hnd
    have hfe : intFeasible (fun j i => joltMatrix buttons i j) t := by
      rw [hmat]; exact hfeas
    obtain ⟨R, hval, hach, hmin⟩ := milpStage_feasible hfe
    rw [hmat] at hach hmin
    exact ⟨R, (solve_joltage_eq_milp lp t buttons hlp).trans hval, hach, hmin⟩

/-- Witness for C2: the first example machine for the chatgpt solver, and
the duplicate-free one-counter machine with target 2 for solve_joltage. -/
theorem C2_counter_solver_minsum_witness :
    (∃ R : ℕ, solve_machine_minpresses exJolt1 (incMatrix exButtons1) = some R ∧
      (∃ x, (∑ j, x j) = R ∧ countersReach (incMatrix exButtons1) exJolt1 x) ∧
      ∀ y, countersReach (incMatrix exButtons1) exJolt1 y → R ≤ ∑ j, y j) ∧
    (∃ R : ℕ, solve_joltage (some ![(2 : ℚ)]) (![2] : Fin 1 → ℕ)
        (![[0]] : Fin 1 → List (Fin 1)) = ((R : ℕ) : WithTop ℕ) ∧
      (∃ x, (∑ j, x j) = R ∧
        countersReach (incMatrix (![[0]] : Fin 1 → List (Fin 1)))
          (![2] : Fin 1 → ℕ) x) ∧
      ∀ y, countersReach (incMatrix (![[0]] : Fin 1 → List (Fin 1)))
          (![2] : Fin 1 → ℕ) y → R ≤ ∑ j, y j) :=
  ⟨(C2_counter_solver_minsum exJolt1 exButtons1).1 ⟨![1, 5, 0, 1, 3, 0], by decide⟩,
   (C2_counter_solver_minsum ![2] ![[0]]).2 (some ![(2 : ℚ)])
     (lpSpec_two_single [0] (by decide)) (by decide) ⟨![2], by decide⟩⟩

/-- Counterexample to C3 as stated: on the machine with one light, target
bit # and the single button (0,0) — two toggles of the same light cancel,
so the system is inconsistent — the Brute-Force Oracle returns 0 while
the field-elimination Binary Solver returns float('inf'). -/
theorem C3_oracle_agreement_cex :
    ¬ (((solve_gf2 (![1] : Fin 1 → ZMod 2) (![[0, 0]] : Fin 1 → List (Fin 1)) : ℕ) : WithTop ℕ) =
      gf2_solve_minweight (![1] : Fin 1 → ZMod 2)
        (toggleMatrix (![[0, 0]] : Fin 1 → List (Fin 1)))) := by
  have hinf : ¬ ∃ x, pressState (![[0, 0]] : Fin 1 → List (Fin 1)) x =
      (![1] : Fin 1 → ZMod 2) := by decide
  have h1 : solve_gf2 (![1] : Fin 1 → ZMod 2) (![[0, 0]] : Fin 1 → List (Fin 1)) = 0 :=
    solve_gf2_infeasible _ _ hinf
  have h2 : gf2_solve_minweight (![1] : Fin 1 → ZMod 2)
      (toggleMatrix (![[0, 0]] : Fin 1 → List (Fin 1))) = ⊤ := by
    rw [gf2_solve_minweight_eq_top_iff]
    rintro ⟨x, hx⟩
    exact hinf ⟨x, (satList_toggle_iff _ _ x).mp hx⟩
  rw [h1, h2]
  simp

/-- Claim C3, amended: on every machine whose toggle system is feasible,
the Brute-Force Oracle (solve_gf2, full 2^m enumeration) agrees with the
field-elimination Binary Solver (gf2_solve_minweight); on infeasible
machines they differ (0 versus float('inf')). -/
theorem C3_oracle_agreement {n m : ℕ} (target : Fin n → ZMod 2)
    (buttons : Fin m → List (Fin n))
    (h : ∃ x, pressState buttons x = target) :
    ((solve_gf2 target buttons : ℕ) : WithTop ℕ) =
      gf2_solve_minweight target (toggleMatrix buttons) :=
  solve_gf2_eq_minweight target buttons h

/-- Witness for C3: the first example machine. -/
theorem C3_oracle_agreement_witness :
    ((solve_gf2 exTarget1 exButtons1 : ℕ) : WithTop ℕ) =
      gf2_solve_minweight exTarget1 (toggleMatrix exButtons1) :=
  C3_oracle_agreement exTarget1 exButtons1 ⟨![0, 0, 0, 0, 1, 1], by decide⟩

/-- Claim C4: on machines with no solution, the reference binary solver
(solve_gf2) returns 0 for an inconsistent toggle system, and the
reference counter solver (solve_machine_minpresses) raises — returns
none — on an infeasible integer program. -/
theorem C4_infeasible_behavior :
    (∀ (n m : ℕ) (target : Fin n → ZMod 2) (buttons : Fin m → List (Fin n)),
      (¬ ∃ x, pressState buttons x = target) → solve_gf2 target buttons = 0) ∧
    (∀ (n m : ℕ) (t : Fin n → ℕ) (buttons : Fin m → List (Fin n)),
      ¬ intFeasible (incMatrix buttons) t →
        solve_machine_minpresses t (incMatrix buttons) = none) :=
  ⟨fun _ _ target buttons h => solve_gf2_infeasible target buttons h,
   fun _ _ t buttons h => solve_machine_infeasible t (incMatrix buttons) h⟩

/-- Witness for C4: the buttonless one-light machine with target # for
the binary part, and a one-button machine that cannot raise its second
counter for the integer part. -/
theorem C4_infeasible_behavior_witness :
    solve_gf2 (![1] : Fin 1 → ZMod 2) (![] : Fin 0 → List (Fin 1)) = 0 ∧
    solve_machine_minpresses (![1, 1] : Fin 2 → ℕ)
      (incMatrix (![[0]] : Fin 1 → List (Fin 2))) = none :=
  ⟨C4_infeasible_behavior.1 1 0 ![1] ![] (by decide),
   C4_infeasible_behavior.2 2 1 ![1, 1] ![[0]] (by decide)⟩

/-- Claim C5: whenever the LP oracle meets its contract, solve_joltage
returns exactly the value of the exact integer-program stage: a
candidate accepted by the rounding fast path already has the
integer-program minimum as its sum, so omitting the rounding stage does
not change the observable result. -/
theorem C5_rounding_fast_path {n m : ℕ} (lp : Option (Fin m → ℚ))
    (t : Fin n → ℕ) (buttons : Fin m → List (Fin n))
    (hlp : lpSpec (joltMatrix buttons) t lp) :
    solve_joltage lp t buttons = milpStage (joltMatrix buttons) t ∧
    ∀ R : ℕ, solve_joltage lp t buttons = ((R : ℕ) : WithTop ℕ) →
      sumAchievable (fun j i => joltMatrix buttons i j) t R ∧
      ∀ y, countersReach (fun j i => joltMatrix buttons i j) t y →
        R ≤ ∑ j, y j := by
  have heq := solve_joltage_eq_milp lp t buttons hlp
  refine ⟨heq, fun R hR => ?_⟩
  rw [heq] at hR
  by_cases hfe : intFeasible (fun j i => joltMatrix buttons i j) t
  · obtain ⟨R', hval, hach, hmin⟩ := milpStage_feasible hfe
    rw [hval] at hR
    have hRR : R' = R := by exact_mod_cast hR
    rw [← hRR]
    exact ⟨hach, hmin⟩
  · rw [milpStage_infeasible hfe] at hR
    exact absurd hR.symm (WithTop.coe_ne_top)

/-- Witness for C5: one counter, one button pressing it, target 2; the LP
optimum is the integer point 2, accepted by the first rounding. -/
theorem C5_rounding_fast_path_witness :
    solve_joltage (some ![(2 : ℚ)]) (![2] : Fin 1 → ℕ)
        (![[0]] : Fin 1 → List (Fin 1)) =
      milpStage (joltMatrix (![[0]] : Fin 1 → List (Fin 1))) ![2] ∧
    ∀ R : ℕ, solve_joltage (some ![(2 : ℚ)]) (![2] : Fin 1 → ℕ)
        (![[0]] : Fin 1 → List (Fin 1)) = ((R : ℕ) : WithTop ℕ) →
      sumAchievable (fun j i => joltMatrix (![[0]] : Fin 1 → List (Fin 1)) i j)
        ![2] R ∧
      ∀ y, countersReach
        (fun j i => joltMatrix (![[0]] : Fin 1 → List (Fin 1)) i j) ![2] y →
        R ≤ ∑ j, y j :=
  C5_rounding_fast_path (some ![(2 : ℚ)]) ![2] ![[0]]
    ⟨⟨fun j => by fin_cases j; norm_num,
      fun i => by fin_cases i; simp [joltMatrix, Fin.sum_univ_one]⟩,
     by
      rintro y ⟨hy0, hyeq⟩
      have h0 := hyeq 0
      simp [joltMatrix, Fin.sum_univ_one] at h0 ⊢
      linarith⟩

/-- Counterexample to C6 as stated: for the one-light machine whose only
button lists index 0 twice, the matrix built by solve_joltage (day10.py)
has entry 1, not the occurrence count 2. -/
theorem C6_increment_matrix_cex :
    ¬ (joltMatrix (![[0, 0]] : Fin 1 → List (Fin 1)) 0 0 =
      ((![[0, 0]] : Fin 1 → List (Fin 1)) 0).count 0) := by
  decide

/-- Claim C6, amended: the chatgpt variant's IncrementMatrix entry does
count occurrences (a button listing an index twice contributes 2 per
press), while the matrix built inside day10.py's solve_joltage is only
the 0/1 indicator of occurrence (a duplicate still contributes 1). -/
theorem C6_increment_matrix {n m : ℕ} (buttons : Fin m → List (Fin n))
    (i : Fin n) (j : Fin m) :
    incMatrix buttons j i = (buttons j).count i ∧
    joltMatrix buttons i j = (if 0 < (buttons j).count i then 1 else 0) := by
  refine ⟨rfl, ?_⟩
  unfold joltMatrix
  by_cases hmem : i ∈ buttons j
  · rw [if_pos hmem, if_pos (List.count_pos_iff.mpr hmem)]
  · rw [if_neg hmem, if_neg]
    intro hpos
    exact hmem (List.count_pos_iff.mp hpos)

/-- Claim C7: an all-zero target yields minimum press count 0 under both
models, for all four solver entry points. -/
theorem C7_all_zero_target :
    (∀ (n m : ℕ) (buttons : Fin m → List (Fin n)),
      solve_gf2 (fun _ => 0) buttons = 0) ∧
    (∀ (n m : ℕ) (buttons : Fin m → List (Fin n)),
      gf2_solve_minweight (fun _ => 0) (toggleMatrix buttons) =
        ((0 : ℕ) : WithTop ℕ)) ∧
    (∀ (n m : ℕ) (buttons : Fin m → List (Fin n)),
      solve_machine_minpresses (fun _ => 0) (incMatrix buttons) = some 0) ∧
    (∀ (n m : ℕ) (lp : Option (Fin m → ℚ)) (buttons : Fin m → List (Fin n)),
      lpSpec (joltMatrix buttons) (fun _ => 0) lp →
        solve_joltage lp (fun _ => 0) buttons = ((0 : ℕ) : WithTop ℕ)) := by
  have hpress0 : ∀ (n m : ℕ) (buttons : Fin m → List (Fin n)),
      pressState buttons (fun _ => 0) = (fun _ => 0) := by
    intro n m buttons
    funext i
    simp [pressState]
  have hgf2 : ∀ (n m : ℕ) (buttons : Fin m → List (Fin n)),
      solve_gf2 (fun _ => 0) buttons = 0 := by
    intro n m buttons
    obtain ⟨x0, -, hval, hmin⟩ := solve_gf2_feasible (fun _ => 0) buttons
      ⟨fun _ => 0, hpress0 n m buttons⟩
    have h0 : weight x0 ≤ weight (fun _ : Fin m => (0 : ZMod 2)) :=
      hmin _ (hpress0 n m buttons)
    have hw0 : weight (fun _ : Fin m => (0 : ZMod 2)) = 0 := by simp [weight]
    rw [hval]
    omega
  have hreach0 : ∀ (n m : ℕ) (B : Fin m → Fin n → ℕ),
      countersReach B (fun _ => 0) (fun _ => 0) := by
    intro n m B i
    simp
  refine ⟨hgf2, ?_, ?_, ?_⟩
  · intro n m buttons
    rw [← solve_gf2_eq_minweight _ _ ⟨fun _ => 0, hpress0 n m buttons⟩,
      hgf2 n m buttons]
  · intro n m buttons
    rw [solve_machine_minpresses, dif_pos ⟨fun _ => 0, hreach0 n m _⟩]
    congr 1
    refine Nat.le_zero.mp (Nat.find_min' _ ⟨fun _ => 0, by simp, hreach0 n m _⟩)
  · intro n m lp buttons hlp
    rw [solve_joltage_eq_milp _ _ _ hlp]
    rw [milpStage, dif_pos ⟨fun _ => 0, hreach0 n m _⟩]
    congr 1
    exact Nat.le_zero.mp (Nat.find_min' _ ⟨fun _ => 0, by simp, hreach0 n m _⟩)

/-- Witness for C7: a one-light, one-button machine with all-zero
targets; the LP oracle returns the zero vector. -/
theorem C7_all_zero_target_witness :
    solve_gf2 (fun _ => 0) (![[0]] : Fin 1 → List (Fin 1)) = 0 ∧
    gf2_solve_minweight (fun _ => 0)
      (toggleMatrix (![[0]] : Fin 1 → List (Fin 1))) = ((0 : ℕ) : WithTop ℕ) ∧
    solve_machine_minpresses (fun _ => 0)
      (incMatrix (![[0]] : Fin 1 → List (Fin 1))) = some 0 ∧
    solve_joltage (some ![(0 : ℚ)]) (fun _ => 0)
      (![[0]] : Fin 1 → List (Fin 1)) = ((0 : ℕ) : WithTop ℕ) :=
  ⟨C7_all_zero_target.1 1 1 ![[0]],
   C7_all_zero_target.2.1 1 1 ![[0]],
   C7_all_zero_target.2.2.1 1 1 ![[0]],
   C7_all_zero_target.2.2.2 1 1 (some ![(0 : ℚ)]) ![[0]]
    ⟨⟨fun j => by fin_cases j; norm_num,
      fun i => by fin_cases i; simp [joltMatrix, Fin.sum_univ_one]⟩,
     fun y hy => by
      have h1 : (∑ j, (![(0 : ℚ)]) j) = 0 := by simp
      rw [h1]
      exact Finset.sum_nonneg fun j _ => hy.1 j⟩⟩

/-- Claim C8: on the three example machine lines of the source, the
Binary Solver minima are 2, 3 and 2 (total 7, both for the brute force
and for the elimination solver) and the Counter Solver minima are 10, 12
and 11 (total 33). -/
theorem C8_example_totals :
    solve_gf2 exTarget1 exButtons1 + solve_gf2 exTarget2 exButtons2 +
      solve_gf2 exTarget3 exButtons3 = 7 ∧
    gf2_solve_minweight exTarget1 (toggleMatrix exButtons1) +
      gf2_solve_minweight exTarget2 (toggleMatrix exButtons2) +
      gf2_solve_minweight exTarget3 (toggleMatrix exButtons3) =
        ((7 : ℕ) : WithTop ℕ) ∧
    solve_machine_minpresses exJolt1 (incMatrix exButtons1) = some 10 ∧
    solve_machine_minpresses exJolt2 (incMatrix exButtons2) = some 12 ∧
    solve_machine_minpresses exJolt3 (incMatrix exButtons3) = some 11 ∧
    (10 + 12 + 11 : ℕ) = 33 := by
  refine ⟨by decide, ?_, ex1_counter, ex2_counter, ex3_counter, rfl⟩
  rw [ex1_minweight, ex2_minweight, ex3_minweight]
  decide

/-- Claim C9: each solver is a pure function of the parsed machine, so
solving the same machine twice yields the identical minimum. -/
theorem C9_determinism : ∀ (n m : ℕ) (target : Fin n → ZMod 2)
    (t : Fin n → ℕ) (buttons : Fin m → List (Fin n)) (lp : Option (Fin m → ℚ)),
    (solve_gf2 target buttons = solve_gf2 target buttons) ∧
    (gf2_solve_minweight target (toggleMatrix buttons) =
      gf2_solve_minweight target (toggleMatrix buttons)) ∧
    (solve_machine_minpresses t (incMatrix buttons) =
      solve_machine_minpresses t (incMatrix buttons)) ∧
    (solve_joltage lp t buttons = solve_joltage lp t buttons) :=
  fun _ _ _ _ _ _ => ⟨rfl, rfl, rfl, rfl⟩

/-- Claim C10: a machine whose increment system is infeasible makes
solve_joltage return the sentinel float('inf') (⊤) rather than raising,
and solve_part2 adds the sentinel into its running total, so the
aggregate part-2 answer becomes infinity. -/
theorem C10_infeasible_sentinel (lp : (M : Machine) → Option (Fin M.btns → ℚ))
    (ms : List Machine) (M0 : Machine) (hmem : M0 ∈ ms)
    (hlp : ∀ M ∈ ms, lpSpec (joltMatrix M.buttons) M.tgt (lp M))
    (hinf : ¬ intFeasible (fun j i => joltMatrix M0.buttons i j) M0.tgt) :
    solve_joltage (lp M0) M0.tgt M0.buttons = ⊤ ∧ solve_part2 lp ms = ⊤ := by
  have h1 : solve_joltage (lp M0) M0.tgt M0.buttons = ⊤ := by
    rw [solve_joltage_eq_milp _ _ _ (hlp M0 hmem), milpStage_infeasible hinf]
  refine ⟨h1, ?_⟩
  unfold solve_part2
  apply list_sum_eq_top
  rw [List.mem_map]
  exact ⟨M0, hmem, h1⟩

/-- Witness for C10: a single machine with one button that cannot touch
the second counter, whose target is 1 — infeasible already for the LP,
so the oracle reports failure. -/
theorem C10_infeasible_sentinel_witness :
    solve_joltage ((fun _ => none : (M : Machine) → Option (Fin M.btns → ℚ))
        (Machine.mk 2 1 ![1, 1] ![[0]]))
      (Machine.mk 2 1 ![1, 1] ![[0]]).tgt
      (Machine.mk 2 1 ![1, 1] ![[0]]).buttons = ⊤ ∧
    solve_part2 (fun _ => none) [Machine.mk 2 1 ![1, 1] ![[0]]] = ⊤ :=
  C10_infeasible_sentinel (fun _ => none) [Machine.mk 2 1 ![1, 1] ![[0]]]
    (Machine.mk 2 1 ![1, 1] ![[0]]) (List.mem_singleton_self _)
    (by
      intro M hM
      rw [List.mem_singleton.mp hM]
      rintro ⟨x, -, heq⟩
      have h1 := heq 1
      simp [joltMatrix, Fin.sum_univ_one] at h1)
    (by decide)

end Day10
